import Mathlib

/-!
Verification of the RESCO benchmark core (`resco_benchmark/multi_signal.py`,
`resco_benchmark/agents/fix_time.py`) against its natural-language
specification.  The Python classes are shallowly embedded: the
`MultiSignal.step` / `reset` control loop becomes a pure function over an
explicit state, simulator ticks become events in an emitted trace, Python
exceptions become `Except` errors, and Python dictionaries become
association lists looked up in insertion order.
-/

/-- Events emitted by one `MultiSignal.step` call, in program order:
latching a phase (`prep_phase`), one `simulationStep` of the simulator,
committing a phase (`set_phase`), and refreshing a controller's
observation (`observe`). -/
inductive Ev where
  | prep (s : String) (a : Nat)
  | tick
  | commit (s : String)
  | observeEv (s : String)
deriving DecidableEq, Repr

/-- Errors `step` can raise before any simulator tick: a `KeyError` from
`act[signal]` on a missing key, and the out-of-range phase-index error
(spec taxonomy: ProtocolError). -/
inductive StepError where
  | keyError (s : String)
  | protocolError (s : String) (a : Nat)
deriving DecidableEq, Repr

/-- One record appended by `calc_metrics`: simulated time, the reward
mapping, and the per-intersection max-queue and total-queue mappings. -/
structure StepMetric where
  step : Nat
  reward : List (String × Int)
  maxQueues : List (String × Nat)
  queueLengths : List (String × Nat)
deriving DecidableEq, Repr

/-- The configuration surface of `MultiSignal.__init__` relevant to the
step/reset state machine.  `tickLen` is the simulated time added by one
`simulationStep` call of the external simulator. -/
structure MSConfig where
  stepLength : Nat
  yellowLength : Nat
  stepRatio : Nat
  endTime : Nat
  tickLen : Nat
  warmup : Nat

/-- The mutable state of a `MultiSignal` instance: `allTs` is the key list
of `self.signals` (`all_ts_ids`, every intersection for which a controller
was constructed), `signalIds` the active set `self.signal_ids`,
`tsStarter` and `run` the staggering counters, `phaseTab` the phase table
per intersection derived once at construction, `time` the simulator's
current simulated time, `metrics` the in-memory metric sequence. -/
structure MSState where
  allTs : List String
  signalIds : List String
  tsStarter : Nat
  run : Nat
  phaseTab : String → List String
  time : Nat
  metrics : List StepMetric

/-- Python dictionary lookup `d[k]` on an association list in insertion
order; `none` is a `KeyError`. -/
def dictGet {α : Type} (d : List (String × α)) (k : String) : Option α :=
  match d with
  | [] => none
  | (k', v) :: rest => if k' = k then some v else dictGet rest k

/-- Embeds `step_sim` for one `range(...)` iteration batch: `n` calls to
`self.sumo.simulationStep()`. -/
def ticks (n : Nat) : List Ev :=
  List.replicate n Ev.tick

/-- Number of `simulationStep` calls in a trace. -/
def tickCount (evs : List Ev) : Nat :=
  (evs.filter (fun e => e = Ev.tick)).length

/-- The loop `for signal in self.signals: self.signals[signal].prep_phase(act[signal])`.
`act[signal]` raises `KeyError` on a missing key.  Modelled from the spec:
`prep_phase` (in `traffic_signal.py`, not part of the sources here)
validates the phase index against the intersection's phase-table bounds
and raises on an index outside `[0, len(phase_table))` (spec §4.2, §7:
ProtocolError).  The trace of successful latches before a raise is kept. -/
def prepAll (phaseLen : String → Nat) (act : List (String × Nat)) :
    List String → List Ev × Option StepError
  | [] => ([], none)
  | s :: rest =>
    match dictGet act s with
    | none => ([], some (StepError.keyError s))
    | some a =>
      if a < phaseLen s then
        let r := prepAll phaseLen act rest
        (Ev.prep s a :: r.1, r.2)
      else
        ([], some (StepError.protocolError s a))

/-- The per-intersection queue aggregation loop of `calc_metrics`:
`queue_length, max_queue = 0, 0; for lane in signal.lanes: ...`. -/
def calcQueues (qs : List Nat) : Nat × Nat :=
  qs.foldl (fun acc q => (acc.1 + q, if q > acc.2 then q else acc.2)) (0, 0)

/-- Embeds `calc_metrics(rewards)`: builds the two queue mappings over
`self.signals` in insertion order and the appended `StepMetric`.
`laneQueues s` lists `signal.full_observation[lane]['queue']` for each
lane of `s` in lane order. -/
def calcMetrics (allTs : List String) (laneQueues : String → List Nat)
    (time : Nat) (rewards : List (String × Int)) : StepMetric :=
  { step := time
    reward := rewards
    maxQueues := allTs.map (fun s => (s, (calcQueues (laneQueues s)).2))
    queueLengths := allTs.map (fun s => (s, (calcQueues (laneQueues s)).1)) }

/-- Embeds `MultiSignal.step(act)` on the dictionary convention: latch every
controller in `self.signals`, advance `yellow_length` batches of
`step_ratio` ticks, commit every controller in `self.signal_ids`, advance
`step_length - yellow_length` batches, observe the active controllers,
append one metric, and compute `done`.  Returns the emitted event trace
(also on error, exceptions keep the ticks already advanced — here none)
and either the error or the new state with `done`. -/
def stepRun (cfg : MSConfig) (st : MSState) (act : List (String × Nat))
    (laneQueues : String → List Nat) (rewards : List (String × Int)) :
    List Ev × Except StepError (MSState × Bool) :=
  let pr := prepAll (fun s => (st.phaseTab s).length) act st.allTs
  match pr.2 with
  | some e => (pr.1, Except.error e)
  | none =>
    let t1 := cfg.yellowLength * cfg.stepRatio
    let t2 := (cfg.stepLength - cfg.yellowLength) * cfg.stepRatio
    let evs := pr.1 ++ ticks t1 ++ st.signalIds.map Ev.commit ++ ticks t2
      ++ st.signalIds.map Ev.observeEv
    let time' := st.time + cfg.tickLen * t1 + cfg.tickLen * t2
    let metric := calcMetrics st.allTs laneQueues time' rewards
    let st' := { st with time := time', metrics := st.metrics ++ [metric] }
    (evs, Except.ok (st', decide (time' ≥ cfg.endTime)))

/-- Embeds `MultiSignal.reset()` on the state-machine fields: flush happens via
`save_metrics` (see `saveMetrics`), `self.metrics = []`, `self.run += 1`,
a fresh simulation (time restarts, then `warmup` batches of `step_ratio`
ticks), the staggering update of `ts_starter`, and
`signal_ids = all_ts_ids[:ts_starter]`.  The phase tables `self.phases`
are not touched. -/
def resetModel (cfg : MSConfig) (st : MSState) : MSState :=
  let run' := st.run + 1
  let ts' :=
    if run' % 30 = 0 ∧ st.tsStarter < st.allTs.length then st.tsStarter + 1
    else st.tsStarter
  { st with
    run := run'
    tsStarter := ts'
    signalIds := st.allTs.take ts'
    time := 0 + cfg.tickLen * (cfg.warmup * cfg.stepRatio)
    metrics := [] }

/-- One line written by `save_metrics`: the four fields rendered in order,
each followed by `', '`, then the newline. -/
def renderLine (m : StepMetric) : String :=
  toString m.step ++ ", " ++ toString m.reward ++ ", "
    ++ toString m.maxQueues ++ ", " ++ toString m.queueLengths ++ ", " ++ "\n"

/-- Embeds `save_metrics`: one line per entry of `self.metrics`, in order. -/
def saveMetrics (ms : List StepMetric) : List String :=
  ms.map renderLine

/-- The external inputs one `step` consumes: the action mapping, the lane
queues sensed after `observe`, and the reward mapping from `reward_fn`. -/
structure StepInput where
  act : List (String × Nat)
  laneQueues : String → List Nat
  rewards : List (String × Int)

/-- Driving one episode: successive `step` calls, stopping at the first
raised error. -/
def runEpisode (cfg : MSConfig) : MSState → List StepInput → Except StepError MSState
  | st, [] => Except.ok st
  | st, inp :: rest =>
    match (stepRun cfg st inp.act inp.laneQueues inp.rewards).2 with
    | Except.error e => Except.error e
    | Except.ok (st', _) => runEpisode cfg st' rest

/-- The metrics carried by a (possibly failed) episode run. -/
def metricsOf : Except StepError MSState → List StepMetric
  | Except.ok st => st.metrics
  | Except.error _ => []

/-- Lines 166–169 of `step`: `for i, ts in enumerate(self.ts_order):
dict_act[ts] = act[i]` — `act[i]` raises `IndexError` when the sequence is
shorter than `ts_order`. -/
def gymmaToDict {α : Type} (order : List String) (act : List α) :
    Option (List (String × α)) :=
  if order.length ≤ act.length then some (order.zip act) else none

/-- Lines 193–195 of `step` (and 158–159 of `reset`): `for ts in
self.ts_order: obss.append(observations[ts])` — a missing key raises. -/
def dictToSeq {α : Type} (d : List (String × α)) : List String → Option (List α)
  | [] => some []
  | ts :: rest =>
    match dictGet d ts with
    | none => none
    | some v =>
      match dictToSeq d rest with
      | none => none
      | some vs => some (v :: vs)

/-- The phase filter of `MultiSignal.__init__` lines 52–59:
`"y" not in p.state and "g" in p.state.lower()`. -/
def phaseSelected (state : String) : Bool :=
  (!(state.data.contains 'y')) && ((state.data.map Char.toLower).contains 'g')

/-- Embeds `self.phases[lightID]`: the phases of the first program logic whose
state string passes `phaseSelected`, in program order. -/
def derivePhases (prog : List String) : List String :=
  prog.filter phaseSelected

/-- Embeds `FixedPhaseAgent.act`: build `[self.current_phase] * len(self.phase_pairs)`,
then advance `self.current_phase = (self.current_phase + 1) % len(self.phase_pairs)`
— a `ZeroDivisionError` when `phase_pairs` is empty. -/
def fixedAct (n : Nat) (cur : Nat) : Except String (List Nat × Nat) :=
  let actions := List.replicate n cur
  if n = 0 then Except.error "ZeroDivisionError"
  else Except.ok (actions, (cur + 1) % n)

/-- Runs `k` successive `act()` calls starting from the freshly constructed
agent (`current_phase = 0`), collecting the returned action lists. -/
def runActs (n : Nat) : Nat → Except String (List (List Nat) × Nat)
  | 0 => Except.ok ([], 0)
  | k + 1 =>
    match runActs n k with
    | Except.error e => Except.error e
    | Except.ok (outs, cur) =>
      match fixedAct n cur with
      | Except.error e => Except.error e
      | Except.ok (a, cur') => Except.ok (outs ++ [a], cur')

/-! ## Helper lemmas -/

theorem tickCount_append (a b : List Ev) :
    tickCount (a ++ b) = tickCount a + tickCount b := by
  simp [tickCount, List.filter_append]

theorem tickCount_ticks (n : Nat) : tickCount (ticks n) = n := by
  simp [tickCount, ticks, List.filter_replicate]

theorem tickCount_map_commit (l : List String) :
    tickCount (l.map Ev.commit) = 0 := by
  induction l with
  | nil => rfl
  | cons s rest ih => simp [tickCount, List.filter]

theorem tickCount_map_observe (l : List String) :
    tickCount (l.map Ev.observeEv) = 0 := by
  induction l with
  | nil => rfl
  | cons s rest ih => simp [tickCount, List.filter]

theorem prepAll_snd_eq_none_iff (pl : String → Nat) (act : List (String × Nat)) :
    ∀ l : List String,
      (prepAll pl act l).2 = none ↔ ∀ s ∈ l, ∃ a, dictGet act s = some a ∧ a < pl s
  | [] => by simp [prepAll]
  | s :: rest => by
    simp only [prepAll]
    cases hg : dictGet act s with
    | none =>
      simp only [Option.some_ne_none, false_iff]
      intro hall
      obtain ⟨a, ha, _⟩ := hall s (List.mem_cons_self s rest)
      rw [hg] at ha
      exact Option.noConfusion ha
    | some a =>
      dsimp only
      by_cases hlt : a < pl s
      · rw [if_pos hlt]
        rw [prepAll_snd_eq_none_iff pl act rest]
        constructor
        · intro hall t ht
          rcases List.mem_cons.mp ht with rfl | ht'
          · exact ⟨a, hg, hlt⟩
          · exact hall t ht'
        · intro hall t ht
          exact hall t (List.mem_cons_of_mem s ht)
      · rw [if_neg hlt]
        simp only [Option.some_ne_none, false_iff]
        intro hall
        obtain ⟨a', ha', hlt'⟩ := hall s (List.mem_cons_self s rest)
        rw [hg] at ha'
        cases ha'
        exact hlt hlt'

theorem prepAll_fst_shape (pl : String → Nat) (act : List (String × Nat)) :
    ∀ l : List String, ∀ e ∈ (prepAll pl act l).1, ∃ s a, e = Ev.prep s a
  | [] => by simp [prepAll]
  | s :: rest => by
    simp only [prepAll]
    cases hg : dictGet act s with
    | none => simp
    | some a =>
      dsimp only
      by_cases hlt : a < pl s
      · rw [if_pos hlt]
        intro e he
        rcases List.mem_cons.mp he with rfl | he'
        · exact ⟨s, a, rfl⟩
        · exact prepAll_fst_shape pl act rest e he'
      · rw [if_neg hlt]
        simp

theorem tickCount_prepAll (pl : String → Nat) (act : List (String × Nat))
    (l : List String) : tickCount (prepAll pl act l).1 = 0 := by
  have h := prepAll_fst_shape pl act l
  simp only [tickCount, List.length_eq_zero]
  rw [List.filter_eq_nil_iff]
  intro e he
  obtain ⟨s, a, rfl⟩ := h e he
  simp

theorem prepAll_mem_of_none (pl : String → Nat) (act : List (String × Nat)) :
    ∀ l : List String, (prepAll pl act l).2 = none →
      ∀ s ∈ l, ∃ a, dictGet act s = some a ∧ Ev.prep s a ∈ (prepAll pl act l).1
  | [] => by simp
  | s :: rest => by
    simp only [prepAll]
    cases hg : dictGet act s with
    | none => simp
    | some a =>
      dsimp only
      by_cases hlt : a < pl s
      · rw [if_pos hlt]
        intro hnone t ht
        rcases List.mem_cons.mp ht with rfl | ht'
        · exact ⟨a, hg, List.mem_cons_self _ _⟩
        · obtain ⟨a', ha', hmem⟩ := prepAll_mem_of_none pl act rest hnone t ht'
          exact ⟨a', ha', List.mem_cons_of_mem _ hmem⟩
      · rw [if_neg hlt]
        simp

set_option maxRecDepth 4000 in
theorem toLower_eq_g_iff (c : Char) : Char.toLower c = 'g' ↔ c = 'g' ∨ c = 'G' := by
  constructor
  · intro h
    by_cases hc : 65 ≤ c.toNat ∧ c.toNat ≤ 90
    · have hrange : c.toNat ∈ List.range 123 := List.mem_range.mpr (by omega)
      have key : ∀ m ∈ List.range 123,
          Char.toLower (Char.ofNat m) = 'g' → (m = 71 ∨ m = 103) := by decide
      have hofnat : Char.ofNat c.toNat = c := Char.ofNat_toNat c
      have h71 : c.toNat = 71 ∨ c.toNat = 103 := key c.toNat hrange (by rw [hofnat]; exact h)
      have h71' : c.toNat = 71 := by omega
      right
      rw [← hofnat, h71']
    · have hid : Char.toLower c = c := by
        simp only [Char.toLower]
        rw [if_neg]
        exact fun hcontra => hc ⟨hcontra.1, hcontra.2⟩
      left
      rw [← hid, h]
  · rintro (rfl | rfl) <;> decide

theorem phaseSelected_iff (p : String) :
    phaseSelected p = true ↔
      ('y' ∉ p.data) ∧ ('g' ∈ p.data ∨ 'G' ∈ p.data) := by
  simp only [phaseSelected, Bool.and_eq_true, Bool.not_eq_true']
  constructor
  · rintro ⟨hy, hg⟩
    refine ⟨by simpa using hy, ?_⟩
    have : 'g' ∈ p.data.map Char.toLower := by simpa using hg
    obtain ⟨c, hc, hcl⟩ := List.mem_map.mp this
    rcases (toLower_eq_g_iff c).mp hcl with rfl | rfl
    · exact Or.inl hc
    · exact Or.inr hc
  · rintro ⟨hy, hg⟩
    refine ⟨by simpa using hy, ?_⟩
    have : 'g' ∈ p.data.map Char.toLower := by
      rcases hg with hg | hg
      · exact List.mem_map.mpr ⟨'g', hg, by decide⟩
      · exact List.mem_map.mpr ⟨'G', hg, by decide⟩
    simpa using this

theorem runActs_pos (n : Nat) (hn : 0 < n) (k : Nat) :
    runActs n k =
      Except.ok ((List.range k).map (fun i => List.replicate n (i % n)), k % n) := by
  induction k with
  | zero => simp [runActs]
  | succ k ih =>
    rw [runActs, ih]
    simp [fixedAct, hn.ne', List.range_succ, Nat.mod_add_mod]

/-! ## Claim theorems -/

/-- C8: The phase table is derived exactly once at construction and
contains exactly those phases of the first program logic whose state
string has no 'y' character and has 'g' or 'G', in program order; reset
leaves the table unchanged. -/
theorem phaseTable_derivation :
    (∀ (prog : List String) (p : String),
        p ∈ derivePhases prog ↔
          p ∈ prog ∧ ('y' ∉ p.data) ∧ ('g' ∈ p.data ∨ 'G' ∈ p.data)) ∧
    (∀ prog : List String, (derivePhases prog).Sublist prog) ∧
    (∀ (cfg : MSConfig) (st : MSState), (resetModel cfg st).phaseTab = st.phaseTab) := by
  refine ⟨fun prog p => ?_, fun prog => List.filter_sublist prog, fun cfg st => rfl⟩
  rw [derivePhases, List.mem_filter, phaseSelected_iff]

/-- C10: For a `FixedPhaseAgent` over a non-empty `phase_pairs` list of
length `n`, the i-th `act()` call (0-indexed) returns a list of `n`
copies of `i % n`, the `current_phase` counter stays in `[0, n)`, and on
an empty `phase_pairs` list `act` raises `ZeroDivisionError`. -/
theorem fixedPhaseAgent_roundRobin (n k : Nat) (hn : 0 < n) :
    (∃ outs : List (List Nat),
        runActs n k = Except.ok (outs, k % n) ∧ outs.length = k ∧
        ∀ i : Fin outs.length, outs.get i = List.replicate n (i.val % n)) ∧
    k % n < n ∧
    (∀ cur, fixedAct 0 cur = Except.error "ZeroDivisionError") := by
  refine ⟨⟨(List.range k).map (fun i => List.replicate n (i % n)),
      runActs_pos n hn k, by simp, ?_⟩, Nat.mod_lt _ hn, fun cur => rfl⟩
  intro i
  have hi : i.val < k := by simpa using i.isLt
  simp [List.getElem_map, List.getElem_range]

theorem fixedPhaseAgent_roundRobin_witness :
    (0 : Nat) < 3 ∧
    ((∃ outs : List (List Nat),
        runActs 3 5 = Except.ok (outs, 5 % 3) ∧ outs.length = 5 ∧
        ∀ i : Fin outs.length, outs.get i = List.replicate 3 (i.val % 3)) ∧
      5 % 3 < 3 ∧
      (∀ cur, fixedAct 0 cur = Except.error "ZeroDivisionError")) :=
  ⟨by decide, fixedPhaseAgent_roundRobin 3 5 (by decide)⟩

/-- Concrete sample configuration: `step_length=10`, `yellow_length=4`,
`step_ratio=2`, `end_time=20`, one simulated second per tick, no warmup. -/
def cfgEx : MSConfig :=
  { stepLength := 10, yellowLength := 4, stepRatio := 2, endTime := 20
    tickLen := 1, warmup := 0 }

/-- Concrete sample state with a single intersection `"A"` holding a
two-phase table. -/
def stEx : MSState :=
  { allTs := ["A"], signalIds := ["A"], tsStarter := 1, run := 1
    phaseTab := fun _ => ["GGrr", "rrGG"], time := 0, metrics := [] }

def actEx : List (String × Nat) := [("A", 1)]

def lqEx : String → List Nat := fun _ => [3, 1, 2]

def rwEx : List (String × Int) := [("A", -2)]

def inpEx : StepInput := { act := actEx, laneQueues := lqEx, rewards := rwEx }

theorem stepRun_success (cfg : MSConfig) (st : MSState) (act : List (String × Nat))
    (lq : String → List Nat) (rw₀ : List (String × Int))
    (h : (prepAll (fun s => (st.phaseTab s).length) act st.allTs).2 = none) :
    stepRun cfg st act lq rw₀ =
      ((prepAll (fun s => (st.phaseTab s).length) act st.allTs).1
          ++ ticks (cfg.yellowLength * cfg.stepRatio)
          ++ st.signalIds.map Ev.commit
          ++ ticks ((cfg.stepLength - cfg.yellowLength) * cfg.stepRatio)
          ++ st.signalIds.map Ev.observeEv,
        Except.ok
          ({ st with
              time := st.time + cfg.tickLen * (cfg.yellowLength * cfg.stepRatio)
                + cfg.tickLen * ((cfg.stepLength - cfg.yellowLength) * cfg.stepRatio)
              metrics := st.metrics ++ [calcMetrics st.allTs lq
                (st.time + cfg.tickLen * (cfg.yellowLength * cfg.stepRatio)
                  + cfg.tickLen * ((cfg.stepLength - cfg.yellowLength) * cfg.stepRatio)) rw₀] },
            decide (st.time + cfg.tickLen * (cfg.yellowLength * cfg.stepRatio)
              + cfg.tickLen * ((cfg.stepLength - cfg.yellowLength) * cfg.stepRatio)
                ≥ cfg.endTime))) := by
  simp only [stepRun]
  rw [h]

theorem stepRun_error (cfg : MSConfig) (st : MSState) (act : List (String × Nat))
    (lq : String → List Nat) (rw₀ : List (String × Int)) (e : StepError)
    (h : (prepAll (fun s => (st.phaseTab s).length) act st.allTs).2 = some e) :
    stepRun cfg st act lq rw₀ =
      ((prepAll (fun s => (st.phaseTab s).length) act st.allTs).1, Except.error e) := by
  simp only [stepRun]
  rw [h]

/-- C1: With a valid phase-index assignment and `yellow_length ≤
step_length`, one `step` advances exactly `step_length * step_ratio`
simulator ticks, decomposed as `yellow_length * step_ratio` ticks before
any commit (the latching preamble has no ticks) followed by
`(step_length - yellow_length) * step_ratio` ticks after every active
controller committed, and simulated time grows accordingly. -/
theorem step_tick_decomposition (cfg : MSConfig) (st : MSState)
    (act : List (String × Nat)) (lq : String → List Nat) (rw₀ : List (String × Int))
    (hvalid : ∀ s ∈ st.allTs, ∃ a, dictGet act s = some a ∧ a < (st.phaseTab s).length)
    (hy : cfg.yellowLength ≤ cfg.stepLength) :
    ∃ st' d,
      stepRun cfg st act lq rw₀ =
        ((prepAll (fun s => (st.phaseTab s).length) act st.allTs).1
            ++ ticks (cfg.yellowLength * cfg.stepRatio)
            ++ st.signalIds.map Ev.commit
            ++ ticks ((cfg.stepLength - cfg.yellowLength) * cfg.stepRatio)
            ++ st.signalIds.map Ev.observeEv,
          Except.ok (st', d)) ∧
      tickCount (prepAll (fun s => (st.phaseTab s).length) act st.allTs).1 = 0 ∧
      tickCount (stepRun cfg st act lq rw₀).1 = cfg.stepLength * cfg.stepRatio ∧
      st'.time = st.time + cfg.tickLen * (cfg.stepLength * cfg.stepRatio) := by
  have hnone : (prepAll (fun s => (st.phaseTab s).length) act st.allTs).2 = none :=
    (prepAll_snd_eq_none_iff _ _ _).mpr hvalid
  have heq := stepRun_success cfg st act lq rw₀ hnone
  refine ⟨_, _, heq, tickCount_prepAll _ _ _, ?_, ?_⟩
  · rw [heq]
    simp only [tickCount_append, tickCount_ticks, tickCount_map_commit,
      tickCount_map_observe, tickCount_prepAll, Nat.zero_add, Nat.add_zero]
    rw [← Nat.add_mul, Nat.add_sub_cancel' hy]
  · simp only
    rw [Nat.add_assoc, ← Nat.mul_add, ← Nat.add_mul, Nat.add_sub_cancel' hy]

theorem step_tick_decomposition_witness :
    (∀ s ∈ stEx.allTs, ∃ a, dictGet actEx s = some a ∧ a < (stEx.phaseTab s).length) ∧
    cfgEx.yellowLength ≤ cfgEx.stepLength ∧
    (∃ st' d,
      stepRun cfgEx stEx actEx lqEx rwEx =
        ((prepAll (fun s => (stEx.phaseTab s).length) actEx stEx.allTs).1
            ++ ticks (cfgEx.yellowLength * cfgEx.stepRatio)
            ++ stEx.signalIds.map Ev.commit
            ++ ticks ((cfgEx.stepLength - cfgEx.yellowLength) * cfgEx.stepRatio)
            ++ stEx.signalIds.map Ev.observeEv,
          Except.ok (st', d)) ∧
      tickCount (prepAll (fun s => (stEx.phaseTab s).length) actEx stEx.allTs).1 = 0 ∧
      tickCount (stepRun cfgEx stEx actEx lqEx rwEx).1 = cfgEx.stepLength * cfgEx.stepRatio ∧
      st'.time = stEx.time + cfgEx.tickLen * (cfgEx.stepLength * cfgEx.stepRatio)) := by
  have hv : ∀ s ∈ stEx.allTs, ∃ a, dictGet actEx s = some a ∧ a < (stEx.phaseTab s).length := by
    intro s hs
    simp only [stEx, List.mem_singleton] at hs
    subst hs
    exact ⟨1, rfl, by decide⟩
  exact ⟨hv, by decide, step_tick_decomposition cfgEx stEx actEx lqEx rwEx hv (by decide)⟩

/-- C3: `step` reports `done = true` exactly when the simulator's
simulated time at the end of the step has reached `end_time`, and
`done = false` strictly before that. -/
theorem step_done_iff_endTime (cfg : MSConfig) (st : MSState)
    (act : List (String × Nat)) (lq : String → List Nat) (rw₀ : List (String × Int))
    (evs : List Ev) (st' : MSState) (d : Bool)
    (h : stepRun cfg st act lq rw₀ = (evs, Except.ok (st', d))) :
    (d = true ↔ st'.time ≥ cfg.endTime) ∧ (d = false ↔ st'.time < cfg.endTime) := by
  cases hp : (prepAll (fun s => (st.phaseTab s).length) act st.allTs).2 with
  | some e =>
    rw [stepRun_error cfg st act lq rw₀ e hp] at h
    exact absurd (congrArg Prod.snd h) (by simp)
  | none =>
    rw [stepRun_success cfg st act lq rw₀ hp] at h
    injection h with h1 h2
    injection h2 with h3
    injection h3 with hst hd
    subst hst
    subst hd
    constructor
    · simp
    · simp [Nat.not_le]

theorem step_done_iff_endTime_witness :
    ∃ evs st' d, stepRun cfgEx stEx actEx lqEx rwEx = (evs, Except.ok (st', d)) ∧
      ((d = true ↔ st'.time ≥ cfgEx.endTime) ∧ (d = false ↔ st'.time < cfgEx.endTime)) := by
  refine ⟨_, _, _, rfl, step_done_iff_endTime cfgEx stEx actEx lqEx rwEx _ _ _ rfl⟩

def isCommitEv : Ev → Bool
  | Ev.commit _ => true
  | _ => false

def isObserveEvent : Ev → Bool
  | Ev.observeEv _ => true
  | _ => false

theorem commit_not_mem_prepAll (pl : String → Nat) (act : List (String × Nat))
    (l : List String) (t : String) : Ev.commit t ∉ (prepAll pl act l).1 := by
  intro hmem
  obtain ⟨s, a, he⟩ := prepAll_fst_shape pl act l _ hmem
  exact Ev.noConfusion he

/-- C2: an action mapping missing an active intersection's entry, or
holding an out-of-range phase index for an active intersection, makes
`step` raise before any simulator tick and before any phase commit,
leaving simulated time unchanged for the call. -/
theorem step_invalid_action_raises (cfg : MSConfig) (st : MSState)
    (act : List (String × Nat)) (lq : String → List Nat) (rw₀ : List (String × Int))
    (s : String) (hmem : s ∈ st.signalIds) (hsub : st.signalIds ⊆ st.allTs)
    (hbad : dictGet act s = none ∨
      ∃ a, dictGet act s = some a ∧ ¬ a < (st.phaseTab s).length) :
    ∃ e, (stepRun cfg st act lq rw₀).2 = Except.error e ∧
      tickCount (stepRun cfg st act lq rw₀).1 = 0 ∧
      ∀ t, Ev.commit t ∉ (stepRun cfg st act lq rw₀).1 := by
  have hall : s ∈ st.allTs := hsub hmem
  cases hp : (prepAll (fun u => (st.phaseTab u).length) act st.allTs).2 with
  | none =>
    exfalso
    obtain ⟨a, ha, hlt⟩ := (prepAll_snd_eq_none_iff _ _ _).mp hp s hall
    rcases hbad with hnone | ⟨a', ha', hge⟩
    · rw [hnone] at ha
      exact Option.noConfusion ha
    · rw [ha'] at ha
      cases ha
      exact hge hlt
  | some e =>
    rw [stepRun_error cfg st act lq rw₀ e hp]
    exact ⟨e, rfl, tickCount_prepAll _ _ _, fun t => commit_not_mem_prepAll _ _ _ t⟩

theorem step_invalid_action_raises_witness :
    "A" ∈ stEx.signalIds ∧
    (∃ e, (stepRun cfgEx stEx [("A", 5)] lqEx rwEx).2 = Except.error e ∧
      tickCount (stepRun cfgEx stEx [("A", 5)] lqEx rwEx).1 = 0 ∧
      ∀ t, Ev.commit t ∉ (stepRun cfgEx stEx [("A", 5)] lqEx rwEx).1) := by
  refine ⟨by decide, ?_⟩
  refine step_invalid_action_raises cfgEx stEx [("A", 5)] lqEx rwEx "A" (by decide)
    (fun x hx => by simpa [stEx] using hx) (Or.inr ⟨5, rfl, by decide⟩)

theorem filter_commit_prepAll (pl : String → Nat) (act : List (String × Nat))
    (l : List String) : (prepAll pl act l).1.filter isCommitEv = [] := by
  rw [List.filter_eq_nil_iff]
  intro e he
  obtain ⟨s, a, rfl⟩ := prepAll_fst_shape pl act l e he
  simp [isCommitEv]

theorem filter_observe_prepAll (pl : String → Nat) (act : List (String × Nat))
    (l : List String) : (prepAll pl act l).1.filter isObserveEvent = [] := by
  rw [List.filter_eq_nil_iff]
  intro e he
  obtain ⟨s, a, rfl⟩ := prepAll_fst_shape pl act l e he
  simp [isObserveEvent]

theorem filter_commit_ticks (n : Nat) : (ticks n).filter isCommitEv = [] := by
  simp [ticks, List.filter_replicate, isCommitEv]

theorem filter_observe_ticks (n : Nat) : (ticks n).filter isObserveEvent = [] := by
  simp [ticks, List.filter_replicate, isObserveEvent]

theorem filter_commit_map_commit (l : List String) :
    (l.map Ev.commit).filter isCommitEv = l.map Ev.commit := by
  rw [List.filter_eq_self]
  intro e he
  obtain ⟨s, _, rfl⟩ := List.mem_map.mp he
  rfl

theorem filter_commit_map_observe (l : List String) :
    (l.map Ev.observeEv).filter isCommitEv = [] := by
  rw [List.filter_eq_nil_iff]
  intro e he
  obtain ⟨s, _, rfl⟩ := List.mem_map.mp he
  simp [isCommitEv]

theorem filter_observe_map_commit (l : List String) :
    (l.map Ev.commit).filter isObserveEvent = [] := by
  rw [List.filter_eq_nil_iff]
  intro e he
  obtain ⟨s, _, rfl⟩ := List.mem_map.mp he
  simp [isObserveEvent]

theorem filter_observe_map_observe (l : List String) :
    (l.map Ev.observeEv).filter isObserveEvent = l.map Ev.observeEv := by
  rw [List.filter_eq_self]
  intro e he
  obtain ⟨s, _, rfl⟩ := List.mem_map.mp he
  rfl

/-- C9: `step` latches a phase for every controller in `self.signals`
(every intersection ever constructed, active or not): a key missing for
any of them raises before any tick, and on success every such
intersection was latched, while commits (`set_phase`) and observations
(`observe`) cover exactly the active set `self.signal_ids`. -/
theorem step_preps_all_signals (cfg : MSConfig) (st : MSState)
    (act : List (String × Nat)) (lq : String → List Nat) (rw₀ : List (String × Int)) :
    (∀ s ∈ st.allTs, dictGet act s = none →
      ∃ e, (stepRun cfg st act lq rw₀).2 = Except.error e ∧
        tickCount (stepRun cfg st act lq rw₀).1 = 0) ∧
    (∀ evs st' d, stepRun cfg st act lq rw₀ = (evs, Except.ok (st', d)) →
      (∀ s ∈ st.allTs, ∃ a, dictGet act s = some a ∧ Ev.prep s a ∈ evs) ∧
      evs.filter isCommitEv = st.signalIds.map Ev.commit ∧
      evs.filter isObserveEvent = st.signalIds.map Ev.observeEv) := by
  constructor
  · intro s hall hnone
    cases hp : (prepAll (fun u => (st.phaseTab u).length) act st.allTs).2 with
    | none =>
      exfalso
      obtain ⟨a, ha, -⟩ := (prepAll_snd_eq_none_iff _ _ _).mp hp s hall
      rw [hnone] at ha
      exact Option.noConfusion ha
    | some e =>
      rw [stepRun_error cfg st act lq rw₀ e hp]
      exact ⟨e, rfl, tickCount_prepAll _ _ _⟩
  · intro evs st' d h
    cases hp : (prepAll (fun u => (st.phaseTab u).length) act st.allTs).2 with
    | some e =>
      rw [stepRun_error cfg st act lq rw₀ e hp] at h
      injection h with h1 h2
      exact absurd h2 (by simp)
    | none =>
      rw [stepRun_success cfg st act lq rw₀ hp] at h
      injection h with h1 h2
      subst h1
      refine ⟨?_, ?_, ?_⟩
      · intro s hall
        obtain ⟨a, ha, hm⟩ := prepAll_mem_of_none _ act st.allTs hp s hall
        refine ⟨a, ha, ?_⟩
        simp only [List.mem_append]
        exact Or.inl (Or.inl (Or.inl (Or.inl hm)))
      · simp only [List.filter_append, filter_commit_prepAll, filter_commit_ticks,
          filter_commit_map_commit, filter_commit_map_observe, List.append_nil,
          List.nil_append]
      · simp only [List.filter_append, filter_observe_prepAll, filter_observe_ticks,
          filter_observe_map_commit, filter_observe_map_observe, List.append_nil,
          List.nil_append]

theorem step_preps_all_signals_witness :
    (∃ e, (stepRun cfgEx stEx [] lqEx rwEx).2 = Except.error e ∧
      tickCount (stepRun cfgEx stEx [] lqEx rwEx).1 = 0) ∧
    (∃ evs st' d, stepRun cfgEx stEx actEx lqEx rwEx = (evs, Except.ok (st', d)) ∧
      ((∀ s ∈ stEx.allTs, ∃ a, dictGet actEx s = some a ∧ Ev.prep s a ∈ evs) ∧
        evs.filter isCommitEv = stEx.signalIds.map Ev.commit ∧
        evs.filter isObserveEvent = stEx.signalIds.map Ev.observeEv)) := by
  constructor
  · exact (step_preps_all_signals cfgEx stEx [] lqEx rwEx).1 "A" (by decide) rfl
  · exact ⟨_, _, _, rfl, (step_preps_all_signals cfgEx stEx actEx lqEx rwEx).2 _ _ _ rfl⟩

/-- C4: across `reset` calls the active-set size is non-decreasing,
bounded by the number of controllable intersections, grows by at most 1
per episode, grows by exactly 1 only when the new 1-indexed episode
number is a multiple of 30 and not all intersections are active yet (and
then it does grow), and the old active set is a prefix of the new one
(once active, never removed). -/
theorem reset_stagger_monotone (cfg : MSConfig) (st : MSState)
    (hle : st.tsStarter ≤ st.allTs.length)
    (hsig : st.signalIds = st.allTs.take st.tsStarter) :
    st.signalIds.length ≤ (resetModel cfg st).signalIds.length ∧
    (resetModel cfg st).signalIds.length ≤ st.allTs.length ∧
    (resetModel cfg st).signalIds.length ≤ st.signalIds.length + 1 ∧
    ((resetModel cfg st).signalIds.length = st.signalIds.length + 1 →
      (st.run + 1) % 30 = 0 ∧ st.signalIds.length < st.allTs.length) ∧
    ((st.run + 1) % 30 = 0 ∧ st.signalIds.length < st.allTs.length →
      (resetModel cfg st).signalIds.length = st.signalIds.length + 1) ∧
    st.signalIds <+: (resetModel cfg st).signalIds := by
  have hlen : st.signalIds.length = st.tsStarter := by
    rw [hsig, List.length_take]
    exact Nat.min_eq_left hle
  by_cases hc : (st.run + 1) % 30 = 0 ∧ st.tsStarter < st.allTs.length
  · have hts : (resetModel cfg st).tsStarter = st.tsStarter + 1 := by
      simp only [resetModel, if_pos hc]
    have hids : (resetModel cfg st).signalIds = st.allTs.take (st.tsStarter + 1) := by
      simp only [resetModel, if_pos hc]
    have hlen' : (resetModel cfg st).signalIds.length = st.tsStarter + 1 := by
      rw [hids, List.length_take]
      exact Nat.min_eq_left hc.2
    refine ⟨?_, ?_, ?_, ?_, ?_, ?_⟩
    · omega
    · omega
    · omega
    · intro _
      exact ⟨hc.1, by omega⟩
    · intro _
      omega
    · rw [hsig, hids]
      exact List.take_isPrefix_take.mpr (Or.inl (by omega))
  · have hids : (resetModel cfg st).signalIds = st.allTs.take st.tsStarter := by
      simp only [resetModel, if_neg hc]
    have hlen' : (resetModel cfg st).signalIds.length = st.tsStarter := by
      rw [hids, List.length_take]
      exact Nat.min_eq_left hle
    refine ⟨by omega, by omega, by omega, by omega, ?_, ?_⟩
    · intro hcc
      exact absurd ⟨hcc.1, by omega⟩ hc
    · rw [hsig, hids]

theorem reset_stagger_monotone_witness :
    stEx.tsStarter ≤ stEx.allTs.length ∧
    stEx.signalIds = stEx.allTs.take stEx.tsStarter ∧
    (stEx.signalIds.length ≤ (resetModel cfgEx stEx).signalIds.length ∧
      (resetModel cfgEx stEx).signalIds.length ≤ stEx.allTs.length ∧
      (resetModel cfgEx stEx).signalIds.length ≤ stEx.signalIds.length + 1 ∧
      ((resetModel cfgEx stEx).signalIds.length = stEx.signalIds.length + 1 →
        (stEx.run + 1) % 30 = 0 ∧ stEx.signalIds.length < stEx.allTs.length) ∧
      (((stEx.run + 1) % 30 = 0 ∧ stEx.signalIds.length < stEx.allTs.length) →
        (resetModel cfgEx stEx).signalIds.length = stEx.signalIds.length + 1) ∧
      stEx.signalIds <+: (resetModel cfgEx stEx).signalIds) :=
  ⟨by decide, by decide, reset_stagger_monotone cfgEx stEx (by decide) (by decide)⟩

theorem dictGet_cons_ne {α : Type} (k' : String) (v : α) (d : List (String × α))
    (k : String) (h : k' ≠ k) : dictGet ((k', v) :: d) k = dictGet d k := by
  simp [dictGet, h]

theorem dictToSeq_congr {α : Type} (d₁ d₂ : List (String × α)) :
    ∀ l : List String, (∀ ts ∈ l, dictGet d₁ ts = dictGet d₂ ts) →
      dictToSeq d₁ l = dictToSeq d₂ l
  | [] => fun _ => rfl
  | ts :: rest => fun h => by
    simp only [dictToSeq]
    rw [h ts (List.mem_cons_self ts rest),
      dictToSeq_congr d₁ d₂ rest (fun t ht => h t (List.mem_cons_of_mem ts ht))]

theorem dictToSeq_zip {α : Type} :
    ∀ (order : List String) (act : List α), order.Nodup → act.length = order.length →
      dictToSeq (order.zip act) order = some act
  | [], [] => fun _ _ => rfl
  | [], a :: as => fun _ h => by simp at h
  | o :: os, [] => fun _ h => by simp at h
  | o :: os, a :: as => fun hnd hlen => by
    have hno : o ∉ os := (List.nodup_cons.mp hnd).1
    have hnd' : os.Nodup := (List.nodup_cons.mp hnd).2
    have hlen' : as.length = os.length := by simpa using hlen
    simp only [List.zip_cons_cons, dictToSeq]
    have h1 : dictGet ((o, a) :: os.zip as) o = some a := by simp [dictGet]
    rw [h1]
    have h2 : dictToSeq ((o, a) :: os.zip as) os = dictToSeq (os.zip as) os :=
      dictToSeq_congr _ _ os
        (fun t ht => dictGet_cons_ne o a _ t (fun he => hno (by rw [he]; exact ht)))
    rw [h2, dictToSeq_zip os as hnd' hlen']

/-- C5: the dictionary and gymma sequence conventions carry the same
information: a sequence of length `|ts_order|` converts to a dictionary
and back unchanged, and a dictionary keyed exactly by `ts_order` converts
to a sequence and back unchanged. -/
theorem dict_seq_roundTrip {α : Type} (order : List String) (hnd : order.Nodup) :
    (∀ act : List α, act.length = order.length →
      gymmaToDict order act = some (order.zip act) ∧
      dictToSeq (order.zip act) order = some act) ∧
    (∀ d : List (String × α), d.map Prod.fst = order →
      dictToSeq d order = some (d.map Prod.snd) ∧
      gymmaToDict order (d.map Prod.snd) = some d) := by
  constructor
  · intro act hlen
    constructor
    · simp [gymmaToDict, le_of_eq hlen.symm]
    · exact dictToSeq_zip order act hnd hlen
  · intro d hkeys
    have hzip : d = order.zip (d.map Prod.snd) := List.zip_of_prod hkeys rfl
    have hlen : (d.map Prod.snd).length = order.length := by
      rw [List.length_map, ← hkeys, List.length_map]
    constructor
    · nth_rewrite 1 [hzip]
      exact dictToSeq_zip order (d.map Prod.snd) hnd hlen
    · simp only [gymmaToDict, if_pos (le_of_eq hlen.symm), ← hzip]

theorem dict_seq_roundTrip_witness :
    (["A", "B"] : List String).Nodup ∧
    ((∀ act : List Int, act.length = (["A", "B"] : List String).length →
        gymmaToDict ["A", "B"] act = some ((["A", "B"] : List String).zip act) ∧
        dictToSeq ((["A", "B"] : List String).zip act) ["A", "B"] = some act) ∧
      (∀ d : List (String × Int), d.map Prod.fst = ["A", "B"] →
        dictToSeq d ["A", "B"] = some (d.map Prod.snd) ∧
        gymmaToDict ["A", "B"] (d.map Prod.snd) = some d)) :=
  ⟨by decide, dict_seq_roundTrip ["A", "B"] (by decide)⟩

theorem dictGet_map_self {α : Type} (f : String → α) :
    ∀ (l : List String) (t : String), t ∈ l →
      dictGet (l.map (fun s => (s, f s))) t = some (f t)
  | [], t => fun ht => absurd ht (List.not_mem_nil t)
  | s :: rest, t => fun ht => by
    simp only [List.map_cons, dictGet]
    by_cases hst : s = t
    · rw [if_pos hst, hst]
    · rw [if_neg hst]
      exact dictGet_map_self f rest t (by
        rcases List.mem_cons.mp ht with h | h
        · exact absurd h.symm hst
        · exact h)

theorem calcQueues_go :
    ∀ (qs : List Nat) (a b : Nat),
      qs.foldl (fun acc q => (acc.1 + q, if q > acc.2 then q else acc.2)) (a, b) =
        (a + qs.sum, qs.foldl max b)
  | [], a, b => by simp
  | q :: rest, a, b => by
    simp only [List.foldl_cons, List.sum_cons]
    rw [calcQueues_go rest (a + q) (if q > b then q else b)]
    have hmax : (if q > b then q else b) = max b q := by
      rcases Nat.lt_or_ge b q with h | h
      · rw [if_pos h, Nat.max_eq_right (Nat.le_of_lt h)]
      · rw [if_neg (Nat.not_lt.mpr h), Nat.max_eq_left h]
    rw [hmax, Nat.add_assoc]

theorem calcQueues_eq (qs : List Nat) :
    calcQueues qs = (qs.sum, qs.foldl max 0) := by
  rw [calcQueues, calcQueues_go qs 0 0]
  simp

theorem le_foldl_max_init : ∀ (qs : List Nat) (b : Nat), b ≤ qs.foldl max b
  | [], b => Nat.le_refl b
  | q :: rest, b => by
    simp only [List.foldl_cons]
    exact Nat.le_trans (Nat.le_max_left b q) (le_foldl_max_init rest (max b q))

theorem le_foldl_max_of_mem :
    ∀ (qs : List Nat) (b q : Nat), q ∈ qs → q ≤ qs.foldl max b
  | [], b, q => fun h => absurd h (List.not_mem_nil q)
  | p :: rest, b, q => fun h => by
    simp only [List.foldl_cons]
    rcases List.mem_cons.mp h with rfl | h'
    · exact Nat.le_trans (Nat.le_max_right b q) (le_foldl_max_init rest (max b q))
    · exact le_foldl_max_of_mem rest (max b p) q h'

theorem foldl_max_eq_or_mem :
    ∀ (qs : List Nat) (b : Nat), qs.foldl max b = b ∨ qs.foldl max b ∈ qs
  | [], b => Or.inl rfl
  | q :: rest, b => by
    simp only [List.foldl_cons]
    rcases foldl_max_eq_or_mem rest (max b q) with h | h
    · rw [h]
      rcases max_choice b q with h' | h'
      · exact Or.inl h'
      · exact Or.inr (by rw [h']; exact List.mem_cons_self q rest)
    · exact Or.inr (List.mem_cons_of_mem q h)

theorem stepRun_snd_ok_metrics (cfg : MSConfig) (st : MSState)
    (act : List (String × Nat)) (lq : String → List Nat) (rw₀ : List (String × Int))
    (st' : MSState) (d : Bool)
    (h : (stepRun cfg st act lq rw₀).2 = Except.ok (st', d)) :
    st'.metrics = st.metrics ++ [calcMetrics st.allTs lq st'.time rw₀] := by
  cases hp : (prepAll (fun u => (st.phaseTab u).length) act st.allTs).2 with
  | some e =>
    rw [stepRun_error cfg st act lq rw₀ e hp] at h
    exact absurd h (by simp)
  | none =>
    rw [stepRun_success cfg st act lq rw₀ hp] at h
    simp only at h
    injection h with h2
    injection h2 with hst hd
    subst hst
    rfl

/-- C7: the `StepMetric` recorded by a successful `step` holds, for every
active intersection, the sum of its per-lane queues and the maximum
single-lane queue (0 when all lanes are empty), together with the reward
mapping and the simulated timestamp. -/
theorem step_metric_queue_aggregation (cfg : MSConfig) (st : MSState)
    (act : List (String × Nat)) (lq : String → List Nat) (rw₀ : List (String × Int))
    (evs : List Ev) (st' : MSState) (d : Bool)
    (h : stepRun cfg st act lq rw₀ = (evs, Except.ok (st', d)))
    (s : String) (hmem : s ∈ st.signalIds) (hsub : st.signalIds ⊆ st.allTs) :
    ∃ m : StepMetric, st'.metrics = st.metrics ++ [m] ∧
      dictGet m.queueLengths s = some ((lq s).sum) ∧
      (∃ M, dictGet m.maxQueues s = some M ∧
        (∀ q ∈ lq s, q ≤ M) ∧ (M = 0 ∨ M ∈ lq s)) ∧
      m.reward = rw₀ ∧ m.step = st'.time := by
  have hall : s ∈ st.allTs := hsub hmem
  have hm := stepRun_snd_ok_metrics cfg st act lq rw₀ st' d
    (by rw [h])
  refine ⟨calcMetrics st.allTs lq st'.time rw₀, hm, ?_, ?_, rfl, rfl⟩
  · have hqs : dictGet (st.allTs.map (fun u => (u, (calcQueues (lq u)).1))) s
        = some ((calcQueues (lq s)).1) := dictGet_map_self _ st.allTs s hall
    simp only [calcMetrics]
    rw [hqs]
    simp [calcQueues_eq]
  · refine ⟨(lq s).foldl max 0, ?_, ?_, ?_⟩
    · have hqm : dictGet (st.allTs.map (fun u => (u, (calcQueues (lq u)).2))) s
          = some ((calcQueues (lq s)).2) := dictGet_map_self _ st.allTs s hall
      simp only [calcMetrics]
      rw [hqm]
      simp [calcQueues_eq]
    · exact fun q hq => le_foldl_max_of_mem (lq s) 0 q hq
    · exact foldl_max_eq_or_mem (lq s) 0

theorem step_metric_queue_aggregation_witness :
    "A" ∈ stEx.signalIds ∧
    (∃ m : StepMetric,
      (match stepRun cfgEx stEx actEx lqEx rwEx with
        | (_, Except.ok (st', _)) => st'.metrics = stEx.metrics ++ [m] ∧
            dictGet m.queueLengths "A" = some ((lqEx "A").sum) ∧
            (∃ M, dictGet m.maxQueues "A" = some M ∧
              (∀ q ∈ lqEx "A", q ≤ M) ∧ (M = 0 ∨ M ∈ lqEx "A")) ∧
            m.reward = rwEx ∧ m.step = st'.time
        | (_, Except.error _) => False)) := by
  refine ⟨by decide, ?_⟩
  obtain ⟨m, hm⟩ := step_metric_queue_aggregation cfgEx stEx actEx lqEx rwEx _ _ _ rfl
    "A" (by decide) (fun x hx => by simpa [stEx] using hx)
  exact ⟨m, hm⟩

theorem runEpisode_metrics_length (cfg : MSConfig) :
    ∀ (inps : List StepInput) (st stF : MSState),
      runEpisode cfg st inps = Except.ok stF →
      stF.metrics.length = st.metrics.length + inps.length
  | [], st, stF => by
    intro h
    simp only [runEpisode] at h
    injection h with h1
    subst h1
    simp
  | inp :: rest, st, stF => by
    intro h
    simp only [runEpisode] at h
    cases he : (stepRun cfg st inp.act inp.laneQueues inp.rewards).2 with
    | error e =>
      rw [he] at h
      exact absurd h (by simp)
    | ok p =>
      obtain ⟨st', b⟩ := p
      rw [he] at h
      simp only at h
      have hm := stepRun_snd_ok_metrics cfg st inp.act inp.laneQueues inp.rewards st' b he
      have ih := runEpisode_metrics_length cfg rest st' stF h
      rw [ih, hm]
      simp [List.length_append]
      omega

/-- C6: each successful `step` appends exactly one `StepMetric`; an
episode of `k` steps started by `reset` accumulates exactly `k` metrics;
and `save_metrics` writes exactly one row per metric, in order. -/
theorem metrics_one_row_per_step (cfg : MSConfig) :
    (∀ (st : MSState) (act : List (String × Nat)) (lq : String → List Nat)
        (rw₀ : List (String × Int)) (evs : List Ev) (st' : MSState) (d : Bool),
      stepRun cfg st act lq rw₀ = (evs, Except.ok (st', d)) →
      ∃ m, st'.metrics = st.metrics ++ [m]) ∧
    (∀ (st₀ : MSState) (inps : List StepInput) (stF : MSState),
      runEpisode cfg (resetModel cfg st₀) inps = Except.ok stF →
      stF.metrics.length = inps.length) ∧
    (∀ ms : List StepMetric, (saveMetrics ms).length = ms.length) ∧
    (∀ (ms : List StepMetric) (i : Nat) (hi : i < (saveMetrics ms).length)
        (h : i < ms.length),
      (saveMetrics ms).get ⟨i, hi⟩ = renderLine (ms.get ⟨i, h⟩)) := by
  refine ⟨?_, ?_, ?_, ?_⟩
  · intro st act lq rw₀ evs st' d h
    exact ⟨calcMetrics st.allTs lq st'.time rw₀,
      stepRun_snd_ok_metrics cfg st act lq rw₀ st' d (by rw [h])⟩
  · intro st₀ inps stF h
    have := runEpisode_metrics_length cfg inps (resetModel cfg st₀) stF h
    simpa [resetModel] using this
  · intro ms
    simp [saveMetrics]
  · intro ms i hi h
    simp [saveMetrics]

theorem metrics_one_row_per_step_witness :
    (∃ m, (match stepRun cfgEx stEx actEx lqEx rwEx with
      | (_, Except.ok (st', _)) => st'.metrics = stEx.metrics ++ [m]
      | (_, Except.error _) => False)) ∧
    (∃ stF, runEpisode cfgEx (resetModel cfgEx stEx) [inpEx] = Except.ok stF ∧
      stF.metrics.length = 1) ∧
    (saveMetrics [] : List String).length = 0 := by
  refine ⟨?_, ?_, rfl⟩
  · obtain ⟨m, hm⟩ := (metrics_one_row_per_step cfgEx).1 stEx actEx lqEx rwEx _ _ _ rfl
    exact ⟨m, hm⟩
  · exact ⟨_, rfl, (metrics_one_row_per_step cfgEx).2.1 stEx [inpEx] _ rfl⟩
